import Mathlib

/-!
Verification of the LiteX CSR core (`litex/soc/interconnect/csr.py`).

This file shallowly embeds the register-map compiler of the repository:

* bit-range helpers modelling Migen slice reads (`sig[lo:hi]`) and slice
  assignments (`sig[lo:hi].eq(v)`) on natural-number values;
* the word splitting performed by `CSRStatus.do_finalize` and
  `CSRStorage.do_finalize` (`nwords`, per-slot widths);
* the atomic-write back-buffer datapath of `CSRStorage.do_finalize`;
* the per-slot read datapath of `CSRStorage.do_finalize` (alignment shift);
* `CSRFieldAggregate.check_ordering_overlap` and `CSRFieldAggregate.get_reset`;
* Migen's `bits_for` as used by `GenericBank`;
* the `AutoCSR` gatherer (`_make_gatherer`, `csrprefix`) over a component
  tree, with the per-root already-prefixed duid set and the global
  name mutation it performs.

Machine integers are modelled as `Nat` with explicit `% 2^w` at the points
where a Migen signal of width `w` truncates a value.
-/

/-- Bits `[lo, lo+w)` of `x`, as a natural number: the value Migen's slice
read `x[lo:lo+w]` produces. -/
def extractBits (x lo w : ℕ) : ℕ := x / 2^lo % 2^w

/-- Replace bits `[lo, lo+w)` of `x` by (the low `w` bits of) `v`, leaving
all other bits unchanged: the effect of Migen's slice assignment
`x[lo:lo+w].eq(v)`. -/
def setBits (x lo w v : ℕ) : ℕ :=
  x % 2^lo + v % 2^w * 2^lo + x / 2^(lo+w) * 2^(lo+w)

theorem extractBits_testBit (x lo w j : ℕ) :
    (extractBits x lo w).testBit j = (decide (j < w) && x.testBit (lo + j)) := by
  rw [extractBits, ← Nat.shiftRight_eq_div_pow]
  simp [Nat.testBit_mod_two_pow, Nat.testBit_shiftRight]

theorem setBits_mod_lo (x lo w v : ℕ) : setBits x lo w v % 2^lo = x % 2^lo := by
  have h1 : x / 2^(lo+w) * 2^(lo+w) = x / 2^(lo+w) * 2^w * 2^lo := by
    rw [pow_add]; ring
  rw [setBits, h1, add_assoc, ← add_mul, Nat.add_mul_mod_self_right,
    Nat.mod_mod_of_dvd _ dvd_rfl]

theorem setBits_div_hi (x lo w v : ℕ) :
    setBits x lo w v / 2^(lo+w) = x / 2^(lo+w) := by
  have hlo : 0 < (2:ℕ)^lo := Nat.two_pow_pos lo
  have hw : 0 < (2:ℕ)^w := Nat.two_pow_pos w
  have hb : x % 2^lo + v % 2^w * 2^lo < 2^(lo+w) := by
    have h1 : x % 2^lo < 2^lo := Nat.mod_lt _ hlo
    have h2 : v % 2^w < 2^w := Nat.mod_lt _ hw
    have h3 : v % 2^w * 2^lo ≤ (2^w - 1) * 2^lo :=
      Nat.mul_le_mul_right _ (by omega)
    have h4 : (2^w - 1) * 2^lo = 2^w * 2^lo - 2^lo := by rw [Nat.sub_mul, one_mul]
    have h5 : (2:ℕ)^(lo+w) = 2^w * 2^lo := by rw [pow_add]; ring
    have h6 : 2^lo ≤ 2^w * 2^lo := Nat.le_mul_of_pos_left _ hw
    omega
  rw [setBits, Nat.add_mul_div_right _ _ (Nat.two_pow_pos (lo+w)),
    Nat.div_eq_of_lt hb, Nat.zero_add]

theorem extractBits_setBits (x lo w v : ℕ) :
    extractBits (setBits x lo w v) lo w = v % 2^w := by
  have hlo : 0 < (2:ℕ)^lo := Nat.two_pow_pos lo
  have h1 : setBits x lo w v
      = x % 2^lo + (v % 2^w + x / 2^(lo+w) * 2^w) * 2^lo := by
    rw [setBits, pow_add]; ring
  have h2 : x % 2^lo / 2^lo = 0 := Nat.div_eq_of_lt (Nat.mod_lt _ hlo)
  rw [extractBits, h1, Nat.add_mul_div_right _ _ hlo, h2, Nat.zero_add,
    Nat.add_mul_mod_self_right, Nat.mod_mod_of_dvd _ dvd_rfl]

/-! ### Word splitting (`CSRStatus.do_finalize` / `CSRStorage.do_finalize`)

Both finalizers compute `nwords = (self.size + busword - 1)//busword` and
iterate `i` over `reversed(range(nwords))`, giving slot `i` the width
`nbits = min(self.size - i*busword, busword)` over bits
`[i*busword, i*busword + nbits)` of the register. -/

/-- `nwords = (self.size + busword - 1)//busword` (valid for `busword > 0`;
the `busword = 0` case is treated separately as a `ZeroDivisionError`). -/
def nwords (size busword : ℕ) : ℕ := (size + busword - 1) / busword

/-- `nbits = min(self.size - i*busword, busword)`: the width of slot `i`. -/
def slotWidth (size busword i : ℕ) : ℕ := min (size - i*busword) busword

/-- The widths of the simple CSRs appended by the finalization loop, in
iteration order (`for i in reversed(range(nwords))`). -/
def slotWidths (size busword : ℕ) : List ℕ :=
  ((List.range (nwords size busword)).reverse).map (slotWidth size busword)

/-- Python-level failures reachable from the finalizers, plus the
`ConfigurationError` that the specification's taxonomy postulates (no code
path raises it). -/
inductive PyError where
  | zeroDivisionError
  | unboundLocalError
  | configurationError
deriving DecidableEq, Repr

/-- `CSRStatus.do_finalize(busword)`, reduced to the data the claims are
about: the list of slot widths it appends to `self.simple_csrs`.
With `busword = 0` the division `(size + busword - 1)//busword` raises
`ZeroDivisionError`.  With `size = 0` (so `nwords = 0`) the loop body never
runs and the method returns normally with no slots. -/
def CSRStatus.do_finalize (size busword : ℕ) : Except PyError (List ℕ) :=
  if busword = 0 then .error .zeroDivisionError
  else .ok (slotWidths size busword)

/-- `CSRStorage.do_finalize(busword)`, reduced to its slot widths.
With `busword = 0` the `nwords` division raises `ZeroDivisionError`.  With
`nwords = 0` (i.e. `size = 0`) the loop body never runs, so the trailing
`self.sync += self.re.eq(sc.re)` reads the never-assigned local `sc` and
raises `UnboundLocalError`. -/
def CSRStorage.do_finalize (size busword : ℕ) : Except PyError (List ℕ) :=
  if busword = 0 then .error .zeroDivisionError
  else if nwords size busword = 0 then .error .unboundLocalError
  else .ok (slotWidths size busword)

/-! ### Atomic-write datapath (`CSRStorage.do_finalize`, write side)

When `nwords > 1 and self.atomic_write`, a `backstore` signal of width
`self.size - busword` is allocated and, for slot `i` with strobe `sc.re`
and incoming data `sc.r`:

* `i > 0`: `backstore[lo-busword:hi-busword].eq(sc.r)` (registered);
* `i = 0`: `self.storage_full.eq(Cat(sc.r, backstore))` (registered).

The state after one clock edge on which exactly slot `i`'s strobe is high
is a pure function of the previous state and the written data. -/

/-- The registered state of an atomic-write `CSRStorage`: the committed
value `storage_full` (width `size`) and the staging `backstore` (width
`size - busword`). -/
structure AtomicState where
  storage_full : ℕ
  backstore : ℕ
deriving DecidableEq, Repr

/-- One clock edge of the atomic-write datapath with slot `i`'s write
strobe high and write data `r` (`sc.r`, a signal of width
`slotWidth size busword i`). `Cat(sc.r, backstore)` places `sc.r` in the
low bits; the result is registered into `storage_full` (width `size`). -/
def CSRStorage.atomicSlotWrite (size busword i r : ℕ) (s : AtomicState) :
    AtomicState :=
  let lo := i * busword
  let nbits := slotWidth size busword i
  if i = 0 then
    { storage_full :=
        (r % 2^nbits + s.backstore % 2^(size - busword) * 2^nbits) % 2^size
      backstore := s.backstore }
  else
    { storage_full := s.storage_full
      backstore := setBits s.backstore (lo - busword) nbits r }

/-! ### Read datapath of `CSRStorage.do_finalize`

For slot `i` over bits `[lo, hi)` (`hi = lo + nbits`):

* `lo >= alignment_bits`: `sc.w.eq(storage_full[lo:hi])`;
* `lo < alignment_bits < hi`:
  `sc.w.eq(Cat(Replicate(0, hi - alignment_bits), storage_full[alignment_bits:hi]))`
  — the concatenation is wider than `sc.w`, so the assignment truncates it
  to `nbits` bits;
* `hi <= alignment_bits`: `sc.w.eq(0)`. -/

/-- The value driven onto slot `i`'s bus read data `sc.w` as a function of
the stored value `sf` (`self.storage_full`), translated from the source. -/
def CSRStorage.slotRead (size busword a i sf : ℕ) : ℕ :=
  let lo := i * busword
  let nbits := slotWidth size busword i
  let hi := lo + nbits
  if a ≤ lo then extractBits sf lo nbits
  else if a < hi then (extractBits sf a (hi - a) * 2^(hi - a)) % 2^nbits
  else 0

/-- Modelled from the spec: the read value claim C2 states — bit positions
of the slot below the alignment boundary read as zero and bit positions
at/above it read the corresponding bits of the stored value, i.e. the
stored bits `[a, hi)` placed at slot-relative position `a - lo`. -/
def specSlotRead (size busword a i sf : ℕ) : ℕ :=
  let lo := i * busword
  let nbits := slotWidth size busword i
  let hi := lo + nbits
  if a ≤ lo then extractBits sf lo nbits
  else if a < hi then extractBits sf a (hi - a) * 2^(a - lo)
  else 0

/-! ### Basic facts about the word split -/

theorem nwords_mul_lt (size busword i : ℕ) (hb : 0 < busword)
    (hi : i < nwords size busword) : i * busword < size := by
  have h1 : i + 1 ≤ (size + busword - 1) / busword := hi
  have h2 : (i + 1) * busword ≤ size + busword - 1 :=
    (Nat.le_div_iff_mul_le hb).mp h1
  have h3 : (i + 1) * busword = i * busword + busword := by ring
  omega

theorem sum_slotWidths_aux (busword : ℕ) (hb : 0 < busword) :
    ∀ n size, n = nwords size busword →
      ((List.range n).map (slotWidth size busword)).sum = size := by
  intro n
  induction n with
  | zero =>
    intro size hn
    have h0 : (size + busword - 1) / busword = 0 := hn.symm
    have h1 : size + busword - 1 < busword := by
      by_contra hcon
      have h2 : 1 * busword ≤ size + busword - 1 := by omega
      have h3 : 1 ≤ (size + busword - 1) / busword :=
        (Nat.le_div_iff_mul_le hb).mpr h2
      omega
    simp only [List.range_zero, List.map_nil, List.sum_nil]
    omega
  | succ n ih =>
    intro size hn
    rw [nwords] at hn
    have hs0 : 1 ≤ size := by
      by_contra hcon
      have : size + busword - 1 < busword := by omega
      have := Nat.div_eq_of_lt this
      omega
    rcases Nat.lt_or_ge busword size with hlt | hge
    · have heq : size + busword - 1 = (size - busword + busword - 1) + busword := by
        omega
      have hdiv : nwords size busword = nwords (size - busword) busword + 1 := by
        unfold nwords
        rw [heq, Nat.add_div_right _ hb]
      have hn' : n = nwords (size - busword) busword := by
        simp only [nwords] at hdiv ⊢
        omega
      have hfun : ((slotWidth size busword) ∘ Nat.succ)
          = slotWidth (size - busword) busword := by
        funext j
        simp only [Function.comp_apply, slotWidth, Nat.succ_eq_add_one]
        have : (j + 1) * busword = j * busword + busword := by ring
        omega
      rw [List.range_succ_eq_map, List.map_cons, List.sum_cons, List.map_map,
        hfun, ih _ hn']
      have h0 : slotWidth size busword 0 = busword := by
        unfold slotWidth
        omega
      omega
    · have h1 : (size + busword - 1) / busword = 1 :=
        Nat.div_eq_of_lt_le (by omega) (by omega)
      have hn0 : n = 0 := by omega
      subst hn0
      rw [List.range_succ, List.range_zero]
      simp only [List.nil_append, List.map_cons, List.map_nil, List.sum_cons,
        List.sum_nil]
      unfold slotWidth
      omega

theorem atomicSlotWrite_pos_eq (size busword i r : ℕ) (s : AtomicState)
    (h : i ≠ 0) :
    CSRStorage.atomicSlotWrite size busword i r s
      = { storage_full := s.storage_full
          backstore := setBits s.backstore (i*busword - busword)
            (slotWidth size busword i) r } := by
  simp [CSRStorage.atomicSlotWrite, h]

theorem atomicSlotWrite_zero_eq (size busword r : ℕ) (s : AtomicState) :
    CSRStorage.atomicSlotWrite size busword 0 r s
      = { storage_full := (r % 2^(slotWidth size busword 0)
            + s.backstore % 2^(size - busword) * 2^(slotWidth size busword 0))
            % 2^size
          backstore := s.backstore } := by
  simp [CSRStorage.atomicSlotWrite]

/-- Claim C1: with atomic write enabled and `word_count > 1`, writing slot
`i > 0` leaves `storage_full` unchanged and updates exactly the region
`[i*busword - busword, i*busword - busword + nbits)` of the back-buffer to
the incoming data; writing slot `0` updates, on that one clock edge, the
full stored value to `Cat(sc.r, backstore)` — the incoming low-word data in
the low `busword` bits followed by the current back-buffer contents. -/
theorem csrstorage_atomic_write (size busword i r : ℕ) (s : AtomicState)
    (hb : 0 < busword) (hw : 1 < nwords size busword)
    (hi : i < nwords size busword) :
    (0 < i →
      (CSRStorage.atomicSlotWrite size busword i r s).storage_full
          = s.storage_full ∧
      extractBits (CSRStorage.atomicSlotWrite size busword i r s).backstore
          (i*busword - busword) (slotWidth size busword i)
        = r % 2^(slotWidth size busword i) ∧
      (CSRStorage.atomicSlotWrite size busword i r s).backstore
          % 2^(i*busword - busword)
        = s.backstore % 2^(i*busword - busword) ∧
      (CSRStorage.atomicSlotWrite size busword i r s).backstore
          / 2^((i*busword - busword) + slotWidth size busword i)
        = s.backstore / 2^((i*busword - busword) + slotWidth size busword i)) ∧
    (i = 0 →
      (CSRStorage.atomicSlotWrite size busword i r s).storage_full
        = r % 2^busword + s.backstore % 2^(size - busword) * 2^busword) := by
  constructor
  · intro hpos
    have hne : i ≠ 0 := by omega
    rw [atomicSlotWrite_pos_eq size busword i r s hne]
    exact ⟨rfl, extractBits_setBits _ _ _ _, setBits_mod_lo _ _ _ _,
      setBits_div_hi _ _ _ _⟩
  · intro h0
    subst h0
    have hsz : busword < size := by
      have h2 : 2 * busword ≤ size + busword - 1 :=
        (Nat.le_div_iff_mul_le hb).mp hw
      omega
    have hnb : slotWidth size busword 0 = busword := by
      unfold slotWidth
      omega
    rw [atomicSlotWrite_zero_eq, hnb]
    apply Nat.mod_eq_of_lt
    have h2 : (2:ℕ)^size = 2^(size - busword) * 2^busword := by
      rw [← pow_add]
      congr 1
      omega
    have h3 : r % 2^busword < 2^busword := Nat.mod_lt _ (Nat.two_pow_pos _)
    have h4 : s.backstore % 2^(size - busword) < 2^(size - busword) :=
      Nat.mod_lt _ (Nat.two_pow_pos _)
    calc r % 2^busword + s.backstore % 2^(size - busword) * 2^busword
        < 2^busword + s.backstore % 2^(size - busword) * 2^busword := by omega
      _ = (s.backstore % 2^(size - busword) + 1) * 2^busword := by ring
      _ ≤ 2^(size - busword) * 2^busword :=
          Nat.mul_le_mul_right _ (by omega)
      _ = 2^size := h2.symm

theorem csrstorage_atomic_write_witness :
    (CSRStorage.atomicSlotWrite 24 8 1 9 ⟨5, 7⟩).storage_full = 5 ∧
    extractBits (CSRStorage.atomicSlotWrite 24 8 1 9 ⟨5, 7⟩).backstore
        (1*8 - 8) (slotWidth 24 8 1) = 9 % 2^(slotWidth 24 8 1) ∧
    (CSRStorage.atomicSlotWrite 24 8 1 9 ⟨5, 7⟩).backstore % 2^(1*8 - 8)
      = 7 % 2^(1*8 - 8) ∧
    (CSRStorage.atomicSlotWrite 24 8 1 9 ⟨5, 7⟩).backstore
        / 2^((1*8 - 8) + slotWidth 24 8 1)
      = 7 / 2^((1*8 - 8) + slotWidth 24 8 1) :=
  (csrstorage_atomic_write 24 8 1 9 ⟨5, 7⟩ (by decide) (by decide)
    (by decide)).1 (by decide)

/-- Claim C2 (code bug): for a slot straddling the alignment boundary
(`lo < a < hi`) the code drives
`Cat(Replicate(0, hi - a), storage_full[a:hi])` — a zero-pad of the wrong
width (`hi - a` instead of `a - lo`), truncated to the slot width — instead
of the claimed value with the bits below the boundary zero and the stored
bits `[a, hi)` at their own positions.  At `size = 8`, `busword = 8`,
`alignment_bits = 2`, `storage_full = 0xff`, slot 0 reads `0xc0` where the
claim requires `0xfc`. -/
theorem csrstorage_alignment_read_bug :
    CSRStorage.slotRead 8 8 2 0 255 = 192 ∧ specSlotRead 8 8 2 0 255 = 252
      ∧ (192 : ℕ) ≠ 252 := by
  refine ⟨by decide, by decide, by decide⟩

/-- Claim C3: splitting a register of `size ≥ 1` bits over a bus of width
`busword ≥ 1` produces exactly `ceil(size/busword)` slots; slot `i` covers
bits `[i*busword, min(size, (i+1)*busword))`, its width is that range's
length, and the widths sum to `size`. -/
theorem register_split_slots (size busword : ℕ) (hs : 1 ≤ size)
    (hb : 1 ≤ busword) :
    (slotWidths size busword).length = (size + busword - 1) / busword ∧
    (∀ i, i < nwords size busword →
      slotWidth size busword i = min size ((i+1) * busword) - i * busword) ∧
    (slotWidths size busword).sum = size := by
  refine ⟨?_, ?_, ?_⟩
  · simp [slotWidths, nwords]
  · intro i hi
    have h1 : i * busword < size := nwords_mul_lt size busword i hb hi
    have h3 : (i + 1) * busword = i * busword + busword := by ring
    unfold slotWidth
    omega
  · rw [slotWidths, List.map_reverse, List.sum_reverse]
    exact sum_slotWidths_aux busword hb _ size rfl

theorem register_split_slots_witness :
    (slotWidths 24 8).length = (24 + 8 - 1) / 8 ∧
    slotWidth 24 8 1 = min 24 ((1+1) * 8) - 1 * 8 ∧
    (slotWidths 24 8).sum = 24 :=
  ⟨(register_split_slots 24 8 (by decide) (by decide)).1,
   (register_split_slots 24 8 (by decide) (by decide)).2.1 1 (by decide),
   (register_split_slots 24 8 (by decide) (by decide)).2.2⟩

/-- Claim C4 counterexample: finalizing a `CSRStatus` of size 0 over an
8-bit bus does not fail at all — the word loop simply runs zero times and
the finalizer returns normally with no slots — refuting the claim that a
zero-sized register fails with `ConfigurationError`. -/
theorem csrstatus_zero_size_finalize_ok :
    CSRStatus.do_finalize 0 8 = Except.ok [] := rfl

/-- Claim C4 (amended): no eager size/bus-width validation exists and no
`ConfigurationError` is ever raised.  A zero bus width fails only at
finalization time with Python's `ZeroDivisionError` (for both register
kinds); a zero-sized register makes `CSRStorage.do_finalize` fail with
`UnboundLocalError` (the loop never defines `sc`, which the trailing
write-acknowledge statement reads) while `CSRStatus.do_finalize` succeeds
and produces zero slots. -/
theorem finalize_zero_size_buswidth (size b : ℕ) :
    CSRStatus.do_finalize size 0 = Except.error PyError.zeroDivisionError ∧
    CSRStorage.do_finalize size 0 = Except.error PyError.zeroDivisionError ∧
    CSRStorage.do_finalize 0 (b+1) = Except.error PyError.unboundLocalError ∧
    CSRStatus.do_finalize 0 (b+1) = Except.ok [] := by
  have h1 : nwords 0 (b+1) = 0 := by
    unfold nwords
    exact Nat.div_eq_of_lt (by omega)
  refine ⟨rfl, rfl, ?_, ?_⟩
  · simp [CSRStorage.do_finalize, h1]
  · simp [CSRStatus.do_finalize, slotWidths, h1]

/-! ### Field layout (`CSRFieldAggregate`)

`check_ordering_overlap` walks the declared field sequence with a running
cursor starting at 0, raising on an explicit offset below the cursor,
assigning the cursor to fields without an explicit offset (a mutation of
`field.offset`, modelled by returning the updated field list), and setting
the cursor to `offset + size` after each field.  `get_reset` folds
`reset |= field.reset_value << field.offset` over the fields. -/

/-- A CSR field, reduced to the attributes the layout logic reads
(`description`, `access`, `pulse` and `values` play no role in
`check_ordering_overlap` / `get_reset` and are omitted). -/
structure CSRField where
  name : String
  size : ℕ
  offset : Option ℕ
  reset_value : ℕ
deriving DecidableEq, Repr

/-- The loop body of `CSRFieldAggregate.check_ordering_overlap`, with the
running cursor as an explicit argument.  The raised
`ValueError("CSRField ordering/overlap issue ...")` is modelled as
`Except.error` carrying the offending field's name. -/
def CSRFieldAggregate.checkGo : List CSRField → ℕ → Except String (List CSRField)
  | [], _ => .ok []
  | f :: rest, cursor =>
    match f.offset with
    | some o =>
      if o < cursor then .error f.name
      else (CSRFieldAggregate.checkGo rest (o + f.size)).map (fun r => f :: r)
    | none =>
      (CSRFieldAggregate.checkGo rest (cursor + f.size)).map
        (fun r => { f with offset := some cursor } :: r)

/-- `CSRFieldAggregate.check_ordering_overlap(fields)`: cursor starts at 0. -/
def CSRFieldAggregate.check_ordering_overlap (fields : List CSRField) :
    Except String (List CSRField) :=
  CSRFieldAggregate.checkGo fields 0

/-- One step of `CSRFieldAggregate.get_reset`:
`reset |= (field.reset_value << field.offset)`.  `get_reset` is only called
after validation, when every `offset` is assigned; `getD 0` is the
`Option` elimination for that. -/
def resetStep (reset : ℕ) (f : CSRField) : ℕ :=
  reset ||| f.reset_value <<< f.offset.getD 0

/-- `CSRFieldAggregate.get_reset(fields)`. -/
def CSRFieldAggregate.get_reset (fields : List CSRField) : ℕ :=
  fields.foldl resetStep 0

/-- Modelled from the spec (claim C7's wording): every field's offset,
explicit ones kept, missing ones auto-assigned to the running cursor,
with the cursor moving to `offset + size` after each field. -/
def specAssignOffsets : List CSRField → ℕ → List CSRField
  | [], _ => []
  | f :: rest, cursor =>
    let o := f.offset.getD cursor
    { f with offset := some o } :: specAssignOffsets rest (o + f.size)

/-- Modelled from the spec (claim C7's wording): no explicitly-offset field
sits below the running cursor. -/
def specOffsetsOk : List CSRField → ℕ → Bool
  | [], _ => true
  | f :: rest, cursor =>
    (match f.offset with
     | some o => decide (cursor ≤ o)
     | none => true)
    && specOffsetsOk rest (f.offset.getD cursor + f.size)

theorem exceptMap_isOk {α β γ : Type} (g : β → γ) (e : Except α β) :
    (e.map g).isOk = e.isOk := by
  cases e <;> rfl

theorem checkGo_spec (fields : List CSRField) : ∀ cursor,
    ((CSRFieldAggregate.checkGo fields cursor).isOk
        = specOffsetsOk fields cursor) ∧
    (specOffsetsOk fields cursor = true →
      CSRFieldAggregate.checkGo fields cursor
        = .ok (specAssignOffsets fields cursor)) := by
  induction fields with
  | nil => exact fun c => ⟨rfl, fun _ => rfl⟩
  | cons f rest ih =>
    intro c
    cases hof : f.offset with
    | some o =>
      by_cases hlt : o < c
      · have hnle : ¬ (c ≤ o) := by omega
        constructor
        · simp [CSRFieldAggregate.checkGo, specOffsetsOk, hof, hlt, hnle,
            Except.isOk, Except.toBool]
        · intro hok
          simp [specOffsetsOk, hof] at hok
          omega
      · have hle : c ≤ o := le_of_not_lt hlt
        constructor
        · simp only [CSRFieldAggregate.checkGo, specOffsetsOk, hof,
            if_neg hlt, exceptMap_isOk, (ih (o + f.size)).1, Option.getD_some]
          simp [hle]
        · intro hok
          simp only [specOffsetsOk, hof, Option.getD_some, Bool.and_eq_true,
            decide_eq_true_eq] at hok
          simp only [CSRFieldAggregate.checkGo, hof, if_neg hlt,
            (ih (o + f.size)).2 hok.2, Except.map, specAssignOffsets,
            Option.getD_some]
          have : ({ f with offset := some o } : CSRField) = f := by
            cases f
            simp_all
          rw [this]
    | none =>
      constructor
      · simp only [CSRFieldAggregate.checkGo, specOffsetsOk, hof,
          exceptMap_isOk, (ih (c + f.size)).1, Option.getD_none,
          Bool.true_and]
      · intro hok
        simp only [specOffsetsOk, hof, Option.getD_none, Bool.true_and]
          at hok
        simp only [CSRFieldAggregate.checkGo, hof,
          (ih (c + f.size)).2 hok, Except.map, specAssignOffsets,
          Option.getD_none]

/-- Claim C7: validation walks the declared order with a cursor starting
at 0; it succeeds exactly when every explicitly-offset field sits at or
above the running cursor (an explicit offset below the cursor fails with
the overlap error), and on success every offset-less field has been
assigned the cursor and after each field the cursor is `offset + size` —
i.e. the result is exactly the spec-side assignment. -/
theorem field_layout_cursor (fields : List CSRField) :
    ((CSRFieldAggregate.check_ordering_overlap fields).isOk
        = specOffsetsOk fields 0) ∧
    (specOffsetsOk fields 0 = true →
      CSRFieldAggregate.check_ordering_overlap fields
        = .ok (specAssignOffsets fields 0)) :=
  checkGo_spec fields 0

theorem field_layout_cursor_witness :
    ((CSRFieldAggregate.check_ordering_overlap
        [⟨"a", 4, none, 5⟩, ⟨"b", 2, some 6, 3⟩]).isOk
      = specOffsetsOk [⟨"a", 4, none, 5⟩, ⟨"b", 2, some 6, 3⟩] 0) ∧
    (CSRFieldAggregate.check_ordering_overlap
        [⟨"a", 4, none, 5⟩, ⟨"b", 2, some 6, 3⟩]
      = .ok (specAssignOffsets [⟨"a", 4, none, 5⟩, ⟨"b", 2, some 6, 3⟩] 0)) :=
  ⟨(field_layout_cursor [⟨"a", 4, none, 5⟩, ⟨"b", 2, some 6, 3⟩]).1,
   (field_layout_cursor [⟨"a", 4, none, 5⟩, ⟨"b", 2, some 6, 3⟩]).2
     (by decide)⟩

/-- The offsets of a validated field list are assigned and non-overlapping:
starting from cursor `c`, each field's offset is at least the cursor and
the cursor then advances past the field. -/
def OffsetsChained : ℕ → List CSRField → Prop
  | _, [] => True
  | c, f :: rest =>
      ∃ o, f.offset = some o ∧ c ≤ o ∧ OffsetsChained (o + f.size) rest

theorem checkGo_chained : ∀ (fields l : List CSRField) (c : ℕ),
    CSRFieldAggregate.checkGo fields c = .ok l → OffsetsChained c l := by
  intro fields
  induction fields with
  | nil =>
    intro l c h
    simp only [CSRFieldAggregate.checkGo] at h
    cases h
    trivial
  | cons f rest ih =>
    intro l c h
    cases hof : f.offset with
    | some o =>
      simp only [CSRFieldAggregate.checkGo, hof] at h
      by_cases hlt : o < c
      · rw [if_pos hlt] at h
        cases h
      · rw [if_neg hlt] at h
        cases hrec : CSRFieldAggregate.checkGo rest (o + f.size) with
        | error e => rw [hrec] at h; cases h
        | ok r =>
          rw [hrec] at h
          cases h
          exact ⟨o, hof, le_of_not_lt hlt, ih r _ hrec⟩
    | none =>
      simp only [CSRFieldAggregate.checkGo, hof] at h
      cases hrec : CSRFieldAggregate.checkGo rest (c + f.size) with
      | error e => rw [hrec] at h; cases h
      | ok r =>
        rw [hrec] at h
        cases h
        exact ⟨c, rfl, le_refl c, ih r _ hrec⟩

theorem lor_mod_two_pow (x y n : ℕ) :
    (x ||| y) % 2^n = x % 2^n ||| y % 2^n := by
  apply Nat.eq_of_testBit_eq
  intro i
  simp only [Nat.testBit_mod_two_pow, Nat.testBit_or]
  cases decide (i < n) <;> simp

theorem extractBits_mod (x lo w : ℕ) :
    extractBits (x % 2^(lo+w)) lo w = extractBits x lo w := by
  apply Nat.eq_of_testBit_eq
  intro j
  simp only [extractBits_testBit, Nat.testBit_mod_two_pow]
  by_cases hj : j < w
  · simp [hj, Nat.add_lt_add_left hj lo]
  · simp [hj]

theorem foldl_reset_mod : ∀ (l : List CSRField) (c a : ℕ),
    OffsetsChained c l → (l.foldl resetStep a) % 2^c = a % 2^c := by
  intro l
  induction l with
  | nil => intro c a _; rfl
  | cons g rest ih =>
    intro c a hch
    obtain ⟨o, ho, hco, hch'⟩ := hch
    simp only [List.foldl_cons]
    have h1 : (rest.foldl resetStep (resetStep a g)) % 2^(o + g.size)
        = (resetStep a g) % 2^(o + g.size) := ih _ _ hch'
    have hdvd : (2:ℕ)^c ∣ 2^(o + g.size) := pow_dvd_pow 2 (by omega)
    have h2 : (rest.foldl resetStep (resetStep a g)) % 2^c
        = (resetStep a g) % 2^c := by
      rw [← Nat.mod_mod_of_dvd _ hdvd, h1, Nat.mod_mod_of_dvd _ hdvd]
    rw [h2, resetStep, lor_mod_two_pow, ho]
    have h3 : (g.reset_value <<< o) % 2^c = 0 := by
      have hsplit : (2:ℕ)^o = 2^(o - c) * 2^c := by
        rw [← pow_add]
        congr 1
        omega
      rw [Nat.shiftLeft_eq, hsplit, ← Nat.mul_assoc, Nat.mul_mod_left]
    rw [Option.getD_some, h3, Nat.or_zero]

theorem getReset_extract_aux : ∀ (l : List CSRField) (c a : ℕ),
    OffsetsChained c l → a < 2^c →
    (∀ g ∈ l, g.reset_value < 2^g.size) →
    ∀ f ∈ l, ∀ o, f.offset = some o →
      extractBits (l.foldl resetStep a) o f.size = f.reset_value := by
  intro l
  induction l with
  | nil => intro c a _ _ _ f hf; cases hf
  | cons g rest ih =>
    intro c a hch ha hfit f hf o ho
    obtain ⟨og, hog, hcog, hch'⟩ := hch
    have hgfit : g.reset_value < 2^g.size := hfit g (by simp)
    have ha' : resetStep a g < 2^(og + g.size) := by
      have h1 : a < 2^(og + g.size) :=
        lt_of_lt_of_le ha (Nat.pow_le_pow_right (by norm_num) (by omega))
      have h2 : g.reset_value <<< og < 2^(og + g.size) := by
        rw [Nat.shiftLeft_eq, pow_add, Nat.mul_comm ((2:ℕ)^og) _]
        exact Nat.mul_lt_mul_of_lt_of_le hgfit (le_refl _)
          (Nat.two_pow_pos _)
      rw [resetStep, hog, Option.getD_some]
      exact Nat.or_lt_two_pow h1 h2
    rcases List.mem_cons.mp hf with hfg | hfr
    · -- `f` is the head field
      subst hfg
      have ho' : og = o := by
        rw [hog] at ho
        cases ho
        rfl
      subst ho'
      simp only [List.foldl_cons]
      have hmod : (rest.foldl resetStep (resetStep a f)) % 2^(og + f.size)
          = (resetStep a f) % 2^(og + f.size) := foldl_reset_mod _ _ _ hch'
      rw [← extractBits_mod _ og f.size, hmod, extractBits_mod]
      apply Nat.eq_of_testBit_eq
      intro j
      rw [extractBits_testBit, resetStep, hog, Option.getD_some,
        Nat.testBit_or, Nat.testBit_shiftLeft]
      have hta : a.testBit (og + j) = false :=
        Nat.testBit_lt_two_pow (lt_of_lt_of_le ha
          (Nat.pow_le_pow_right (by norm_num) (by omega)))
      by_cases hj : j < f.size
      · simp [hta, hj, Nat.add_sub_cancel_left]
      · have htr : f.reset_value.testBit j = false :=
          Nat.testBit_lt_two_pow (lt_of_lt_of_le hgfit
            (Nat.pow_le_pow_right (by norm_num) (by omega)))
        have htr' : f.reset_value.testBit (og + j - og) = false := by
          rwa [Nat.add_sub_cancel_left]
        simp [hta, hj, htr, htr']
    · -- `f` is in the tail
      simp only [List.foldl_cons]
      exact ih (og + g.size) (resetStep a g) hch' ha'
        (fun x hx => hfit x (by simp [hx])) f hfr o ho

/-- Claim C8 counterexample: a single 1-bit field whose declared reset
value 2 does not fit its width passes validation, yet slicing the combined
reset value back into its range `[0, 1)` yields 0, not the declared 2. -/
theorem reset_roundtrip_cex :
    CSRFieldAggregate.check_ordering_overlap [⟨"f", 1, none, 2⟩]
        = Except.ok [⟨"f", 1, some 0, 2⟩] ∧
    extractBits (CSRFieldAggregate.get_reset [⟨"f", 1, some 0, 2⟩]) 0 1 = 0 ∧
    (0 : ℕ) ≠ 2 :=
  ⟨rfl, by decide, by decide⟩

/-- Claim C8 (amended): for every successfully validated field list whose
declared reset values fit their declared widths
(`reset_value < 2^size`), slicing the aggregate's combined reset value back
into each field's bit range `[offset, offset + size)` yields exactly that
field's declared reset value. -/
theorem reset_roundtrip (fields l : List CSRField)
    (hok : CSRFieldAggregate.check_ordering_overlap fields = Except.ok l)
    (hfit : ∀ g ∈ l, g.reset_value < 2^g.size)
    (f : CSRField) (hf : f ∈ l) (o : ℕ) (ho : f.offset = some o) :
    extractBits (CSRFieldAggregate.get_reset l) o f.size = f.reset_value :=
  getReset_extract_aux l 0 0 (checkGo_chained fields l 0 hok) (by norm_num)
    hfit f hf o ho

theorem reset_roundtrip_witness :
    extractBits (CSRFieldAggregate.get_reset
      [⟨"a", 4, some 0, 5⟩, ⟨"b", 2, some 6, 3⟩]) 6 2 = 3 :=
  reset_roundtrip [⟨"a", 4, none, 5⟩, ⟨"b", 2, some 6, 3⟩]
    [⟨"a", 4, some 0, 5⟩, ⟨"b", 2, some 6, 3⟩] rfl (by decide)
    ⟨"b", 2, some 6, 3⟩ (by decide) 6 rfl

/-! ### `GenericBank` address-decode width

`GenericBank.__init__` ends with
`self.decode_bits = bits_for(len(self.simple_csrs)-1)`.  `bits_for` is the
helper imported from the HDL library (an external collaborator of this
core); its standard definition is embedded here:
`log2_int(n, need_pow2=False)` returns `0` for `n = 0` and
`(n-1).bit_length()` otherwise, and `bits_for(n)` returns
`log2_int(n+1, False)` for `n > 0` and `log2_int(-n, False) + 1` (the sign
bit) for `n <= 0`.  Python's `int.bit_length` is `Nat.size`. -/

/-- `log2_int(n, need_pow2=False)` for a non-negative argument. -/
def log2_int (n : ℕ) : ℕ := if n = 0 then 0 else Nat.size (n - 1)

/-- `bits_for(n)`: number of bits needed to represent `n`.  The argument is
an integer because `GenericBank` passes `slot_count - 1`, which is `-1`
for an empty bank. -/
def bits_for (n : ℤ) : ℕ :=
  if 0 < n then log2_int (n + 1).toNat else log2_int (-n).toNat + 1

/-- `GenericBank.decode_bits = bits_for(len(self.simple_csrs) - 1)` as a
function of the number of simple CSR slots in the bank. -/
def GenericBank.decode_bits (slot_count : ℕ) : ℕ :=
  bits_for ((slot_count : ℤ) - 1)

theorem size_one_eq : Nat.size 1 = 1 :=
  le_antisymm (Nat.size_le.mpr (by norm_num))
    (Nat.lt_size.mpr (by norm_num))

/-- Claim C9 counterexample: a bank with 2 slots gets decode width
`bits_for(1) = 1`, while the claimed formula
`ceil(log2(max(1, slot_count - 1))) = ceil(log2(1))` gives 0 — with 0
decode bits the two slots could not even be distinguished. -/
theorem decode_bits_formula_cex :
    GenericBank.decode_bits 2 = 1 ∧ Nat.clog 2 (max 1 (2 - 1)) = 0 ∧
      (1:ℕ) ≠ 0 := by
  refine ⟨?_, ?_, by norm_num⟩
  · unfold GenericBank.decode_bits bits_for log2_int
    norm_num
    exact size_one_eq
  · exact Nat.clog_one_right 2

/-- Claim C9 (amended): the decode width handed to the bus adapter is
`bits_for(slot_count - 1)`: for `slot_count ≥ 2` this is the smallest `w`
with `slot_count ≤ 2^w`, i.e. `ceil(log2(slot_count))` — not
`ceil(log2(max(1, slot_count - 1)))` — and for `slot_count ≤ 1` it is 1
(`bits_for` adds a sign bit for arguments `≤ 0`). -/
theorem decode_bits_minimal (n : ℕ) :
    (2 ≤ n → (n ≤ 2^(GenericBank.decode_bits n) ∧
      ∀ w, n ≤ 2^w → GenericBank.decode_bits n ≤ w)) ∧
    (n ≤ 1 → GenericBank.decode_bits n = 1) := by
  constructor
  · intro h2
    have he : GenericBank.decode_bits n = Nat.size (n - 1) := by
      unfold GenericBank.decode_bits bits_for log2_int
      have h0 : (0:ℤ) < (n:ℤ) - 1 := by omega
      rw [if_pos h0]
      have h1 : ((n:ℤ) - 1 + 1).toNat = n := by omega
      rw [h1]
      have hne : n ≠ 0 := by omega
      rw [if_neg hne]
    rw [he]
    constructor
    · have := Nat.lt_size_self (n - 1)
      omega
    · intro w hw
      exact Nat.size_le.mpr (by omega)
  · intro hle
    have hcases : n = 0 ∨ n = 1 := by omega
    rcases hcases with h | h <;> subst h
    · unfold GenericBank.decode_bits bits_for log2_int
      norm_num
    · unfold GenericBank.decode_bits bits_for log2_int
      norm_num

theorem decode_bits_minimal_witness :
    (2:ℕ) ≤ 5 ∧ 5 ≤ 2^(GenericBank.decode_bits 5) ∧
      GenericBank.decode_bits 5 ≤ 3 :=
  ⟨by norm_num, ((decode_bits_minimal 5).1 (by norm_num)).1,
   ((decode_bits_minimal 5).1 (by norm_num)).2 3 (by norm_num)⟩

/-! ### The `AutoCSR` gatherer (`_make_gatherer`, `csrprefix`)

A component tree is modelled by the mutual inductives below.  CSR objects
are identified by their `duid` (the global creation-order id `DUID`
assigns); the mutable `name` attributes of all CSR objects live in a
global store `σ : ℕ → String` indexed by duid, so that the in-place
rename `csr.name = prefix + csr.name` is visible both through the returned
list and through the owning sub-component.  Each component carries

* its scanned attributes in iteration order (an attribute is either a CSR
  object itself — `isinstance(v, cls)` — or a sub-component exposing the
  collection method),
* its `autocsr_exclude` set of attribute names, and
* its own `__prefixed` set of duids (`done`).

`gatherC`/`gatherA` return the collected duids (sorted ascending at the
root, as Python's `sorted(r, key=lambda x: x.duid)` does), the updated
component (its own and its descendants' `__prefixed` sets may have grown)
and the updated name store. -/

mutual
inductive Component where
  | mk : AttrList → List String → List ℕ → Component
inductive AttrList where
  | nil : AttrList
  | item : String → ℕ → AttrList → AttrList
  | sub : String → Component → AttrList → AttrList
end

/-- `csrprefix(prefix, csrs, done)`: walk the collected items; every item
whose duid is not yet in `done` gets `prefix` prepended to its name
(mutating the global store) and its duid added to `done`. -/
def prependNames (pre : String) : List ℕ → (ℕ → String) → List ℕ →
    (ℕ → String) × List ℕ
  | [], σ, done => (σ, done)
  | d :: t, σ, done =>
    if d ∈ done then prependNames pre t σ done
    else prependNames pre t (fun x => if x = d then pre ++ σ d else σ x)
      (d :: done)

mutual
/-- The gatherer `_make_gatherer` installs (e.g. `get_csrs`): scan the
attributes, collect CSR attributes directly, recurse into sub-components,
prefix the recursed items with `<attribute name>_` via `csrprefix`, and
return the merged list sorted by duid. -/
def gatherC : Component → (ℕ → String) →
    List ℕ × Component × (ℕ → String)
  | .mk attrs ex done, σ =>
    let t := gatherA attrs ex done σ
    (List.insertionSort (· ≤ ·) t.1, .mk t.2.1 ex t.2.2.1, t.2.2.2)

/-- One pass over the attribute list (`for k, v in xdir(self, True)`),
threading the name store and the root's `done` set left to right. -/
def gatherA : AttrList → List String → List ℕ → (ℕ → String) →
    List ℕ × AttrList × List ℕ × (ℕ → String)
  | .nil, _, done, σ => ([], .nil, done, σ)
  | .item k d rest, ex, done, σ =>
    let t := gatherA rest ex done σ
    (if k ∈ ex then t.1 else d :: t.1, .item k d t.2.1, t.2.2.1, t.2.2.2)
  | .sub k c rest, ex, done, σ =>
    if k ∈ ex then
      let t := gatherA rest ex done σ
      (t.1, .sub k c t.2.1, t.2.2.1, t.2.2.2)
    else
      let u := gatherC c σ
      let p := prependNames (k ++ "_") u.1 u.2.2 done
      let t := gatherA rest ex p.2 p.1
      (u.1 ++ t.1, .sub k u.2.1 t.2.1, t.2.2.1, t.2.2.2)
end

mutual
/-- The duids `gatherC` returns, as a pure function of the tree shape
(independent of the name store and of the `done` sets). -/
def duidsC : Component → List ℕ
  | .mk attrs ex _ => List.insertionSort (· ≤ ·) (duidsA attrs ex)
/-- The duids an attribute scan contributes, in iteration order. -/
def duidsA : AttrList → List String → List ℕ
  | .nil, _ => []
  | .item k d rest, ex =>
    if k ∈ ex then duidsA rest ex else d :: duidsA rest ex
  | .sub k c rest, ex =>
    if k ∈ ex then duidsA rest ex else duidsC c ++ duidsA rest ex
end

mutual
/-- A component is saturated when every duid gathered from a non-excluded
sub-component is already in its `done` set, recursively: the state reached
after one collection call. -/
def satC : Component → Bool
  | .mk attrs ex done => satA attrs ex done
def satA : AttrList → List String → List ℕ → Bool
  | .nil, _, _ => true
  | .item _ _ rest, ex, done => satA rest ex done
  | .sub k c rest, ex, done =>
    (if k ∈ ex then true
     else (duidsC c).all (fun d => decide (d ∈ done)) && satC c)
    && satA rest ex done
end

theorem prependNames_done_mono (pre : String) : ∀ (ds : List ℕ)
    (σ : ℕ → String) (done : List ℕ),
    done ⊆ (prependNames pre ds σ done).2 := by
  intro ds
  induction ds with
  | nil => intro σ done; exact fun x hx => hx
  | cons e t ih =>
    intro σ done
    by_cases he : e ∈ done
    · simp only [prependNames, if_pos he]
      exact ih _ _
    · simp only [prependNames, if_neg he]
      exact fun x hx => ih _ _ (List.mem_cons_of_mem e hx)

theorem prependNames_mem (pre : String) : ∀ (ds : List ℕ) (σ : ℕ → String)
    (done : List ℕ) (d : ℕ), d ∈ ds → d ∈ (prependNames pre ds σ done).2 := by
  intro ds
  induction ds with
  | nil => intro σ done d hd; cases hd
  | cons e t ih =>
    intro σ done d hd
    by_cases he : e ∈ done
    · simp only [prependNames, if_pos he]
      rcases List.mem_cons.mp hd with h | h
      · exact prependNames_done_mono pre t σ done (h ▸ he)
      · exact ih _ _ _ h
    · simp only [prependNames, if_neg he]
      rcases List.mem_cons.mp hd with h | h
      · exact prependNames_done_mono pre t _ _ (by simp [h])
      · exact ih _ _ _ h

theorem prependNames_noop (pre : String) : ∀ (ds : List ℕ) (σ : ℕ → String)
    (done : List ℕ), (∀ d ∈ ds, d ∈ done) →
    prependNames pre ds σ done = (σ, done) := by
  intro ds
  induction ds with
  | nil => intro σ done _; rfl
  | cons e t ih =>
    intro σ done h
    have he : e ∈ done := h e (by simp)
    simp only [prependNames, if_pos he]
    exact ih _ _ (fun d hd => h d (by simp [hd]))

theorem prependNames_preserved (pre : String) : ∀ (ds : List ℕ)
    (σ : ℕ → String) (done : List ℕ) (d : ℕ), d ∈ done →
    (prependNames pre ds σ done).1 d = σ d := by
  intro ds
  induction ds with
  | nil => intro σ done d _; rfl
  | cons e t ih =>
    intro σ done d hd
    by_cases he : e ∈ done
    · simp only [prependNames, if_pos he]
      exact ih _ _ _ hd
    · have hne : d ≠ e := fun h => he (h ▸ hd)
      simp only [prependNames, if_neg he]
      rw [ih _ _ _ (List.mem_cons_of_mem e hd)]
      simp [hne]

theorem prependNames_applies (pre : String) : ∀ (ds : List ℕ)
    (σ : ℕ → String) (done : List ℕ) (d : ℕ), d ∈ ds → d ∉ done →
    (prependNames pre ds σ done).1 d = pre ++ σ d := by
  intro ds
  induction ds with
  | nil => intro σ done d hd _; cases hd
  | cons e t ih =>
    intro σ done d hd hnd
    by_cases he : e ∈ done
    · have hne : d ≠ e := fun h => hnd (h ▸ he)
      have hdt : d ∈ t := by
        rcases List.mem_cons.mp hd with h | h
        · exact absurd h hne
        · exact h
      simp only [prependNames, if_pos he]
      exact ih _ _ _ hdt hnd
    · simp only [prependNames, if_neg he]
      by_cases hde : d = e
      · subst hde
        rw [prependNames_preserved pre t _ _ d (by simp)]
        simp
      · have hdt : d ∈ t := by
          rcases List.mem_cons.mp hd with h | h
          · exact absurd h hde
          · exact h
        have hnd' : d ∉ e :: done := by
          simp [hde, hnd]
        rw [ih _ _ _ hdt hnd']
        simp [hde]

mutual
theorem gatherC_fst : ∀ (c : Component) (σ : ℕ → String),
    (gatherC c σ).1 = duidsC c
  | .mk attrs ex done, σ => by
    simp only [gatherC, duidsC, gatherA_fst attrs ex done σ]
theorem gatherA_fst : ∀ (a : AttrList) (ex : List String) (done : List ℕ)
    (σ : ℕ → String), (gatherA a ex done σ).1 = duidsA a ex
  | .nil, ex, done, σ => rfl
  | .item k d rest, ex, done, σ => by
    simp only [gatherA, duidsA, gatherA_fst rest ex done σ]
  | .sub k c rest, ex, done, σ => by
    by_cases hk : k ∈ ex
    · simp only [gatherA, duidsA, if_pos hk, gatherA_fst rest ex done σ]
    · simp only [gatherA, duidsA, if_neg hk, gatherC_fst c σ,
        gatherA_fst rest ex _ _]
end

mutual
theorem gatherC_duids : ∀ (c : Component) (σ : ℕ → String),
    duidsC (gatherC c σ).2.1 = duidsC c
  | .mk attrs ex done, σ => by
    simp only [gatherC, duidsC, gatherA_duids attrs ex done σ]
theorem gatherA_duids : ∀ (a : AttrList) (ex : List String) (done : List ℕ)
    (σ : ℕ → String), duidsA (gatherA a ex done σ).2.1 ex = duidsA a ex
  | .nil, ex, done, σ => rfl
  | .item k d rest, ex, done, σ => by
    simp only [gatherA, duidsA, gatherA_duids rest ex done σ]
  | .sub k c rest, ex, done, σ => by
    by_cases hk : k ∈ ex
    · simp only [gatherA, duidsA, if_pos hk, gatherA_duids rest ex done σ]
    · simp only [gatherA, duidsA, if_neg hk, gatherC_duids c σ,
        gatherA_duids rest ex _ _]
end

theorem gatherA_done_mono : ∀ (a : AttrList) (ex : List String)
    (done : List ℕ) (σ : ℕ → String), done ⊆ (gatherA a ex done σ).2.2.1
  | .nil, ex, done, σ => fun x hx => hx
  | .item k d rest, ex, done, σ => by
    simp only [gatherA]
    exact gatherA_done_mono rest ex done σ
  | .sub k c rest, ex, done, σ => by
    by_cases hk : k ∈ ex
    · simp only [gatherA, if_pos hk]
      exact gatherA_done_mono rest ex done σ
    · simp only [gatherA, if_neg hk]
      exact fun x hx => gatherA_done_mono rest ex _ _
        (prependNames_done_mono _ _ _ _ hx)

mutual
theorem gatherC_sat : ∀ (c : Component) (σ : ℕ → String),
    satC (gatherC c σ).2.1 = true
  | .mk attrs ex done, σ => by
    simp only [gatherC, satC]
    exact gatherA_sat attrs ex done σ
theorem gatherA_sat : ∀ (a : AttrList) (ex : List String) (done : List ℕ)
    (σ : ℕ → String),
    satA (gatherA a ex done σ).2.1 ex (gatherA a ex done σ).2.2.1 = true
  | .nil, ex, done, σ => rfl
  | .item k d rest, ex, done, σ => by
    simp only [gatherA, satA]
    exact gatherA_sat rest ex done σ
  | .sub k c rest, ex, done, σ => by
    by_cases hk : k ∈ ex
    · simp only [gatherA, satA, if_pos hk, Bool.true_and]
      exact gatherA_sat rest ex done σ
    · simp only [gatherA, satA, if_neg hk, Bool.and_eq_true]
      refine ⟨⟨?_, ?_⟩, ?_⟩
      · -- every duid of the sub-component is in the final done set
        rw [List.all_eq_true]
        intro d hd
        rw [gatherC_duids c σ, ← gatherC_fst c σ] at hd
        have h1 : d ∈ (prependNames (k ++ "_") (gatherC c σ).1
            (gatherC c σ).2.2 done).2 :=
          prependNames_mem _ _ _ _ _ hd
        exact decide_eq_true (gatherA_done_mono rest ex _ _ h1)
      · exact gatherC_sat c σ
      · exact gatherA_sat rest ex _ _
end

mutual
theorem gatherC_noop : ∀ (c : Component) (σ : ℕ → String),
    satC c = true → gatherC c σ = (duidsC c, c, σ)
  | .mk attrs ex done, σ => by
    intro hsat
    simp only [satC] at hsat
    simp only [gatherC, duidsC, gatherA_noop attrs ex done σ hsat]
theorem gatherA_noop : ∀ (a : AttrList) (ex : List String) (done : List ℕ)
    (σ : ℕ → String), satA a ex done = true →
    gatherA a ex done σ = (duidsA a ex, a, done, σ)
  | .nil, ex, done, σ => fun _ => rfl
  | .item k d rest, ex, done, σ => by
    intro hsat
    simp only [satA] at hsat
    simp only [gatherA, duidsA, gatherA_noop rest ex done σ hsat]
  | .sub k c rest, ex, done, σ => by
    intro hsat
    simp only [satA, Bool.and_eq_true] at hsat
    by_cases hk : k ∈ ex
    · simp only [gatherA, duidsA, if_pos hk,
        gatherA_noop rest ex done σ hsat.2]
    · rw [if_neg hk, Bool.and_eq_true] at hsat
      have hmem : ∀ d ∈ duidsC c, d ∈ done := by
        intro d hd
        exact of_decide_eq_true (List.all_eq_true.mp hsat.1.1 d hd)
      simp only [gatherA, duidsA, if_neg hk, gatherC_noop c σ hsat.1.2,
        prependNames_noop (k ++ "_") (duidsC c) σ done hmem,
        gatherA_noop rest ex done σ hsat.2]
end

/-- Claim C6: a second collection call on the same root returns exactly the
same result — the same duid list, the same component state and the same
name store, so in particular the same list of item names and no name ever
receives an attribute prefix twice (the per-root `done` set of duids filled
by the first call makes every `csrprefix` of the second call a no-op). -/
theorem gatherer_idempotent (c : Component) (σ : ℕ → String) :
    gatherC (gatherC c σ).2.1 (gatherC c σ).2.2 = gatherC c σ := by
  rw [gatherC_noop (gatherC c σ).2.1 (gatherC c σ).2.2 (gatherC_sat c σ),
    gatherC_duids c σ, ← gatherC_fst c σ]

/-- Attribute lists as plain lists, for stating permutation invariance:
an attribute is a name paired with either a CSR duid or a sub-component. -/
def AttrList.ofList : List (String × (ℕ ⊕ Component)) → AttrList
  | [] => .nil
  | (k, .inl d) :: t => .item k d (AttrList.ofList t)
  | (k, .inr c) :: t => .sub k c (AttrList.ofList t)

/-- The duids a single attribute contributes to the scan. -/
def attrContrib (ex : List String) : String × (ℕ ⊕ Component) → List ℕ
  | (k, .inl d) => if k ∈ ex then [] else [d]
  | (k, .inr c) => if k ∈ ex then [] else duidsC c

theorem duidsA_ofList : ∀ (l : List (String × (ℕ ⊕ Component)))
    (ex : List String),
    duidsA (AttrList.ofList l) ex = (l.map (attrContrib ex)).flatten := by
  intro l
  induction l with
  | nil => intro ex; rfl
  | cons p t ih =>
    intro ex
    obtain ⟨k, v⟩ := p
    cases v with
    | inl d =>
      by_cases hk : k ∈ ex <;>
        simp [AttrList.ofList, duidsA, attrContrib, hk, ih]
    | inr c =>
      by_cases hk : k ∈ ex <;>
        simp [AttrList.ofList, duidsA, attrContrib, hk, ih]

/-- Claim C5: the collection result is sorted strictly by creation-order id
(duid), ascending, and permuting the root's attribute declaration/iteration
order leaves the returned list unchanged (given that the collected duids
are distinct, as creation-order ids are). -/
theorem collect_sorted_order_independent
    (l₁ l₂ : List (String × (ℕ ⊕ Component))) (ex : List String)
    (done : List ℕ) (σ : ℕ → String)
    (hperm : l₂.Perm l₁)
    (hnd : ((gatherC (.mk (AttrList.ofList l₁) ex done) σ).1).Nodup) :
    List.Sorted (· < ·)
        ((gatherC (.mk (AttrList.ofList l₁) ex done) σ).1) ∧
    (gatherC (.mk (AttrList.ofList l₂) ex done) σ).1
      = (gatherC (.mk (AttrList.ofList l₁) ex done) σ).1 := by
  have h1 : ∀ l : List (String × (ℕ ⊕ Component)),
      (gatherC (.mk (AttrList.ofList l) ex done) σ).1
        = List.insertionSort (· ≤ ·) (duidsA (AttrList.ofList l) ex) := by
    intro l
    rw [gatherC_fst]
    rfl
  have hstrict : ∀ xs : List ℕ, List.Sorted (· ≤ ·) xs → xs.Nodup →
      List.Sorted (· < ·) xs := by
    intro xs hs hn
    exact (hs.and hn).imp (fun hab => lt_of_le_of_ne hab.1 hab.2)
  have hs₁ : List.Sorted (· < ·)
      ((gatherC (.mk (AttrList.ofList l₁) ex done) σ).1) := by
    rw [h1]
    rw [h1] at hnd
    exact hstrict _ (List.sorted_insertionSort _ _) hnd
  refine ⟨hs₁, ?_⟩
  have hperm2 : (gatherC (.mk (AttrList.ofList l₂) ex done) σ).1.Perm
      ((gatherC (.mk (AttrList.ofList l₁) ex done) σ).1) := by
    rw [h1, h1]
    refine List.Perm.trans (List.perm_insertionSort _ _)
      (List.Perm.trans ?_ (List.perm_insertionSort _ _).symm)
    rw [duidsA_ofList, duidsA_ofList]
    exact (hperm.map (attrContrib ex)).flatten
  have hnd₂ : ((gatherC (.mk (AttrList.ofList l₂) ex done) σ).1).Nodup :=
    hperm2.nodup_iff.mpr hnd
  have hs₂ : List.Sorted (· < ·)
      ((gatherC (.mk (AttrList.ofList l₂) ex done) σ).1) := by
    rw [h1]
    rw [h1] at hnd₂
    exact hstrict _ (List.sorted_insertionSort _ _) hnd₂
  haveI : IsAntisymm ℕ (· < ·) :=
    ⟨fun a b h h2 => absurd h2 (lt_asymm h)⟩
  exact List.eq_of_perm_of_sorted hperm2 hs₂ hs₁

theorem collect_sorted_order_independent_witness :
    List.Sorted (· < ·)
        ((gatherC (.mk (AttrList.ofList
          ([("b", Sum.inl 3), ("a", Sum.inl 1)]
            : List (String × (ℕ ⊕ Component)))) [] [])
          (fun _ => "")).1) ∧
    (gatherC (.mk (AttrList.ofList
        ([("a", Sum.inl 1), ("b", Sum.inl 3)]
          : List (String × (ℕ ⊕ Component)))) [] []) (fun _ => "")).1
      = (gatherC (.mk (AttrList.ofList
        ([("b", Sum.inl 3), ("a", Sum.inl 1)]
          : List (String × (ℕ ⊕ Component)))) [] []) (fun _ => "")).1 :=
  collect_sorted_order_independent _ _ [] [] (fun _ => "")
    (List.Perm.swap _ _ _) (by decide)

/-- Claim C10: prefixing items gathered from a nested collector mutates the
items' name attributes in place: after the root's collection call, looking
up the duid `d` of an item of sub-component `c` in the (global, shared)
name store yields the prefixed name — the rename is observable through the
sub-component's own object, not only through the returned list. -/
theorem gatherer_renames_in_subcomponent (k : String) (c : Component)
    (ex : List String) (done : List ℕ) (σ : ℕ → String) (d : ℕ)
    (hk : k ∉ ex) (hd : d ∈ (gatherC c σ).1) (hdone : d ∉ done) :
    (gatherC (.mk (AttrList.sub k c AttrList.nil) ex done) σ).2.2 d
      = (k ++ "_") ++ (gatherC c σ).2.2 d := by
  simp only [gatherC, gatherA, if_neg hk]
  exact prependNames_applies (k ++ "_") _ _ _ _ hd hdone

theorem gatherer_renames_in_subcomponent_witness :
    ("child" ∉ ([] : List String)) ∧
    (5 ∈ (gatherC (.mk (AttrList.item "r" 5 AttrList.nil) [] [])
      (fun _ => "v")).1) ∧
    (5 ∉ ([] : List ℕ)) ∧
    (gatherC (.mk (AttrList.sub "child"
          (.mk (AttrList.item "r" 5 AttrList.nil) [] []) AttrList.nil)
        [] []) (fun _ => "v")).2.2 5
      = ("child" ++ "_") ++
        (gatherC (.mk (AttrList.item "r" 5 AttrList.nil) [] [])
          (fun _ => "v")).2.2 5 :=
  ⟨by decide, by decide, by decide,
   gatherer_renames_in_subcomponent "child"
     (.mk (AttrList.item "r" 5 AttrList.nil) [] []) [] [] (fun _ => "v") 5
     (by decide) (by decide) (by decide)⟩
